import Mathlib

/-!
# randbin: verification development

Shallow embedding of `randbin.c` (functions `main` and `modify_file`).

* Bytes (`unsigned char`) are natural numbers; buffers are lists of them.
* The results of the successive calls of `rand()` are supplied as a list of
  natural numbers, consumed from the front, one element per call.
* `float` and `double` are IEEE-754 binary32 and binary64 with
  round-to-nearest-even, and an expression with a `double` operand is
  evaluated in `double` (`FLT_EVAL_METHOD` 0 or 1, as on x86-64); values are
  kept as exact fractions `(num, den)`. Exponent range limits (overflow,
  subnormals) cannot be reached from a `long` file size and an `int`
  percentage and are not modelled.
* `rand()` returns a value in `0 .. RAND_MAX`; theorems over all sequences of
  results hold for every `RAND_MAX`, and theorems that exhibit a sequence use
  results below `fsize` or below 2 only.
-/

namespace Randbin

/-! ## Floating point arithmetic used by `nbytes = ((float)fsize * ((float)percent / 100.0))` -/

/-- Nearest natural number to `n / d`, a tie going to the even neighbour. -/
def roundHalfEven (n d : Nat) : Nat :=
  let q := n / d
  let r := n % d
  if 2 * r < d then q
  else if d < 2 * r then q + 1
  else if q % 2 = 0 then q else q + 1

/-- Auxiliary recursion of `ilog2`; `fuel` bounds the number of halvings. -/
def ilog2Aux : Nat → Nat → Nat
  | 0, _ => 0
  | fuel + 1, n => if 2 ≤ n then ilog2Aux fuel (n / 2) + 1 else 0

/-- Position of the leading binary digit: `floor (log2 n)` for `n > 0`. -/
def ilog2 (n : Nat) : Nat := ilog2Aux n n

/-- Round the non-negative rational `n / d` to the nearest binary floating
point number with `P` significant bits (ties to even). The result is the
fraction `(num, den)`; `den` is a power of two. With `c` chosen so that
`2^(P-1) ≤ (n / d) * 2^(c - log2 n) / 2^(log2 n - c) < 2^P`, the scaled value
is rounded to an integer significand and scaled back. -/
def fpRound (P n d : Nat) : Nat × Nat :=
  if n = 0 ∨ d = 0 then (0, 1)
  else
    let c0 := ilog2 d + (P - 1)
    let c :=
      if 2 ^ (P - 1) * (d * 2 ^ (ilog2 n - c0)) ≤ n * 2 ^ (c0 - ilog2 n) then c0
      else c0 + 1
    let s := c - ilog2 n
    let t := ilog2 n - c
    (roundHalfEven (n * 2 ^ s) (d * 2 ^ t) * 2 ^ t, 2 ^ s)

/-- Conversion of a non-negative integer to `float`: `(float)n`. -/
def toFloat (n : Nat) : Nat × Nat := fpRound 24 n 1

/-- Division in `double`: `a / b` for non-negative operands given as fractions. -/
def doubleDiv (a b : Nat × Nat) : Nat × Nat := fpRound 53 (a.1 * b.2) (a.2 * b.1)

/-- Multiplication in `double`: `a * b` for non-negative operands given as fractions. -/
def doubleMul (a b : Nat × Nat) : Nat × Nat := fpRound 53 (a.1 * b.1) (a.2 * b.2)

/-- Conversion of a non-negative `double` to `long` (truncation toward zero). -/
def truncToLong (a : Nat × Nat) : Nat := a.1 / a.2

/-- Magnitude of `((float)fsize * ((float)percent / 100.0))` converted to
`long`, for `percent` of magnitude `p`. The constant `100.0` is a `double`, so
the division and the multiplication are carried out in `double`. -/
def nbytesMag (fsize p : Nat) : Nat :=
  truncToLong (doubleMul (toFloat fsize) (doubleDiv (toFloat p) (100, 1)))

/-- The mutation count `nbytes` of `modify_file` (line 182). IEEE arithmetic
and truncation are symmetric in the sign, so a negative `percent` gives the
negated magnitude. -/
def nbytes_of (fsize : Nat) (percent : Int) : Int :=
  if percent < 0 then -(nbytesMag fsize percent.natAbs : Int)
  else (nbytesMag fsize percent.natAbs : Int)

/-! ## The mutation loop of `modify_file` (lines 190-208) -/

/-- Outcome of running part of the program on a finite supply of `rand()`
results: `done a` when it ran to completion, `starved` when every supplied
result was consumed and a loop is still running, `fault` when it reached
undefined behaviour (division by zero, access outside an array). -/
inductive Run (α : Type) where
  | done (a : α)
  | starved
  | fault
deriving DecidableEq

/-- The variables of `modify_file` that the mutation loop reads and writes.
`log` is the trace that the `DEBUG` build prints: `(pos, newbyte)` per iteration. -/
structure MState where
  fcontents : List Nat
  mappos : List Nat
  log : List (Nat × Nat)
deriving DecidableEq

/-- Lines 191-193: `do { pos = (rand() % fsize); } while(mappos[pos] == 0xFF);`
returns the chosen `pos` and the unused `rand()` results. -/
def pickPos (fsize : Nat) (mappos : List Nat) : List Nat → Run (Nat × List Nat)
  | [] => Run.starved
  | r :: rs =>
    if fsize = 0 then Run.fault
    else
      match mappos[r % fsize]? with
      | none => Run.fault
      | some v => if v = 0xFF then pickPos fsize mappos rs else Run.done (r % fsize, rs)

/-- Lines 196-199: `do { newbyte = (rand() % 255); } while(newbyte == fcontents[pos]);`
with `newbyte` an `unsigned char`. -/
def pickByte (fcontents : List Nat) (pos : Nat) : List Nat → Run (Nat × List Nat)
  | [] => Run.starved
  | r :: rs =>
    match fcontents[pos]? with
    | none => Run.fault
    | some old =>
      if (r % 255) % 256 = old then pickByte fcontents pos rs
      else Run.done ((r % 255) % 256, rs)

/-- One iteration of the `for` loop (lines 191-200). -/
def loopBody (fsize : Nat) (st : MState) (rs : List Nat) : Run (MState × List Nat) :=
  match pickPos fsize st.mappos rs with
  | Run.starved => Run.starved
  | Run.fault => Run.fault
  | Run.done (pos, rs1) =>
    match pickByte st.fcontents pos rs1 with
    | Run.starved => Run.starved
    | Run.fault => Run.fault
    | Run.done (newbyte, rs2) =>
      Run.done
        ({ fcontents := st.fcontents.set pos newbyte,
           mappos := st.mappos.set pos 0xFF,
           log := st.log ++ [(pos, newbyte)] }, rs2)

/-- The loop `for (i = 0; i < nbytes; i++)`; the first argument is the number
of iterations still to run, `nbytes - i`. -/
def mutationLoop (fsize : Nat) : Nat → MState → List Nat → Run (MState × List Nat)
  | 0, st, rs => Run.done (st, rs)
  | k + 1, st, rs =>
    match loopBody fsize st rs with
    | Run.starved => Run.starved
    | Run.fault => Run.fault
    | Run.done (st1, rs1) => mutationLoop fsize k st1 rs1

/-- State at the loop entry: the buffer holds the file (line 174), `mappos`
is `fsize` zero bytes (lines 178-179). -/
def initState (input : List Nat) : MState :=
  { fcontents := input, mappos := List.replicate input.length 0x00, log := [] }

/-- Number of positions of the file at which the output byte differs from the input byte. -/
def countDiff (input output : List Nat) : Nat :=
  (List.range input.length).countP (fun p => decide (output[p]? ≠ input[p]?))

/-- Invariant of the `for` loop after `i` completed iterations on the file `input`. -/
structure Inv (input : List Nat) (st : MState) (i : Nat) : Prop where
  len_fc : st.fcontents.length = input.length
  len_mp : st.mappos.length = input.length
  marked : ∀ p : Nat, st.mappos[p]? = some 0xFF →
    st.fcontents[p]? ≠ input[p]? ∧ ∃ v, st.fcontents[p]? = some v ∧ v < 255
  unmarked : ∀ p : Nat, p < input.length → st.mappos[p]? ≠ some 0xFF →
    st.mappos[p]? = some 0x00 ∧ st.fcontents[p]? = input[p]?
  count : st.mappos.count 0xFF = i
  diff : countDiff input st.fcontents = i
  log_len : st.log.length = i
  log_nodup : (st.log.map Prod.fst).Nodup
  log_mem : ∀ p : Nat, p ∈ st.log.map Prod.fst ↔ st.mappos[p]? = some 0xFF
  log_val : ∀ e ∈ st.log, st.fcontents[e.1]? = some e.2

/-! ## `modify_file` -/

/-- What the environment answers to the library calls of `modify_file`. -/
structure Env where
  /-- Contents of the input file, `none` when `fopen(input, "r")` fails. -/
  fopen_in : Option (List Nat)
  /-- Whether `malloc` for `outfilename` succeeds. -/
  malloc_outfilename : Bool
  /-- Whether `fopen(outfilename, "w")` succeeds. -/
  fopen_out : Bool
  /-- Whether `malloc` for `fcontents` returns a non-null pointer. -/
  malloc_fcontents : Bool
  /-- Whether `malloc` for `mappos` returns a non-null pointer. -/
  malloc_mappos : Bool

/-- The function `modify_file` (lines 120-220): the returned `int` and the
contents of the output file (`none` when it was never created). A value of
the `double` expression outside the range of `long`, and `memset` through a
null `mappos`, are undefined behaviour. -/
def modify_file (env : Env) (percent : Int) (rs : List Nat) : Run (Int × Option (List Nat)) :=
  match env.fopen_in with
  | none => Run.done (-1, none)
  | some input =>
    let fsize := input.length
    if !env.malloc_outfilename then Run.done (-1, none)
    else if !env.fopen_out then Run.done (-1, none)
    else if !env.malloc_fcontents then Run.done (-1, some [])
    else if !env.malloc_mappos then Run.fault
    else
      let nbytes := nbytes_of fsize percent
      if nbytes < -(2 ^ 63) ∨ 2 ^ 63 ≤ nbytes then Run.fault
      else
        match mutationLoop fsize nbytes.toNat (initState input) rs with
        | Run.starved => Run.starved
        | Run.fault => Run.fault
        | Run.done (st, _) => Run.done (0, some st.fcontents)

/-! ## `main` -/

/-- One option as `getopt_long` reports it; `percent` carries `atoi(optarg)`. -/
inductive Opt where
  | help
  | file (optarg : String)
  | outdir (optarg : String)
  | percent (value : Int)
  | other
deriving DecidableEq

/-- The variables `input_filename`, `outdir`, `percent` set by the option loop. -/
structure Args where
  input_filename : Option String
  outdir : Option String
  percent : Int
deriving DecidableEq

/-- The option loop of `main` (lines 48-70); `none` when `-h` ends the
program through `exit(EXIT_SUCCESS)`. -/
def parseArgs : List Opt → Args → Option Args
  | [], a => some a
  | Opt.help :: _, _ => none
  | Opt.file s :: os, a => parseArgs os { a with input_filename := some s }
  | Opt.outdir s :: os, a => parseArgs os { a with outdir := some s }
  | Opt.percent v :: os, a => parseArgs os { a with percent := v }
  | Opt.other :: os, a => parseArgs os a

/-- Initial values of the variables of `main` (lines 43-45). -/
def initArgs : Args := { input_filename := none, outdir := none, percent := 1 }

def EXIT_SUCCESS : Nat := 0

def EXIT_FAILURE : Nat := 1

/-- What `main` does: `exited` for `exit` in the option loop, `returned` for
a `return` before `modify_file` is reached, `invoked` when `modify_file` is
called with the given arguments (`main` then returns `EXIT_SUCCESS`). -/
inductive MainResult where
  | exited (status : Nat)
  | returned (status : Nat)
  | invoked (input outdir : String) (percent : Int)
deriving DecidableEq

/-- Argument validation of `main` (lines 73-90). -/
def validate (a : Args) : MainResult :=
  match a.input_filename with
  | none => MainResult.returned EXIT_FAILURE
  | some input =>
    match a.outdir with
    | none => MainResult.returned EXIT_FAILURE
    | some outdir =>
      if a.percent ≤ 0 then MainResult.returned EXIT_FAILURE
      else MainResult.invoked input outdir a.percent

/-- The function `main` (lines 31-95) on the options of the command line. -/
def main (opts : List Opt) : MainResult :=
  match parseArgs opts initArgs with
  | none => MainResult.exited EXIT_SUCCESS
  | some a => validate a

/-! ## Facts about the two rejection loops -/

theorem pickPos_done {fsize : Nat} {mappos : List Nat} {rs rs1 : List Nat} {pos : Nat}
    (h : pickPos fsize mappos rs = Run.done (pos, rs1)) :
    pos < fsize ∧ ∃ v, mappos[pos]? = some v ∧ v ≠ 0xFF := by
  induction rs with
  | nil => simp [pickPos] at h
  | cons r rs ih =>
    unfold pickPos at h
    by_cases hf : fsize = 0
    · simp [hf] at h
    · rw [if_neg hf] at h
      cases hm : mappos[r % fsize]? with
      | none => rw [hm] at h; simp at h
      | some v =>
        rw [hm] at h
        by_cases hv : v = 0xFF
        · simp only [hv, if_true] at h
          exact ih h
        · simp only [hv, if_false, Run.done.injEq, Prod.mk.injEq] at h
          obtain ⟨h1, _⟩ := h
          subst h1
          exact ⟨Nat.mod_lt _ (Nat.pos_of_ne_zero hf), v, hm, hv⟩

theorem pickByte_done {fcontents : List Nat} {pos : Nat} {rs rs1 : List Nat} {newbyte : Nat}
    (h : pickByte fcontents pos rs = Run.done (newbyte, rs1)) :
    newbyte < 255 ∧ ∃ old, fcontents[pos]? = some old ∧ newbyte ≠ old := by
  induction rs with
  | nil => simp [pickByte] at h
  | cons r rs ih =>
    unfold pickByte at h
    cases hm : fcontents[pos]? with
    | none => rw [hm] at h; simp at h
    | some old =>
      rw [hm] at h
      by_cases hv : (r % 255) % 256 = old
      · simp only [hv, if_true] at h
        rw [hm] at ih
        exact ih h
      · simp only [hv, if_false, Run.done.injEq, Prod.mk.injEq] at h
        obtain ⟨h1, _⟩ := h
        subst h1
        refine ⟨?_, _, rfl, hv⟩
        have := Nat.mod_lt r (show 0 < 255 by norm_num)
        omega

/-- The body of the loop, when it completes, wrote exactly one position. -/
theorem loopBody_done {fsize : Nat} {st st1 : MState} {rs rs1 : List Nat}
    (h : loopBody fsize st rs = Run.done (st1, rs1)) :
    ∃ pos newbyte old v, pos < fsize ∧ st.mappos[pos]? = some v ∧ v ≠ 0xFF ∧
      st.fcontents[pos]? = some old ∧ newbyte ≠ old ∧ newbyte < 255 ∧
      st1 = { fcontents := st.fcontents.set pos newbyte,
              mappos := st.mappos.set pos 0xFF,
              log := st.log ++ [(pos, newbyte)] } := by
  unfold loopBody at h
  cases hp : pickPos fsize st.mappos rs with
  | starved => rw [hp] at h; simp at h
  | fault => rw [hp] at h; simp at h
  | done a =>
    obtain ⟨pos, rs2⟩ := a
    rw [hp] at h
    simp only at h
    cases hb : pickByte st.fcontents pos rs2 with
    | starved => rw [hb] at h; simp at h
    | fault => rw [hb] at h; simp at h
    | done b =>
      obtain ⟨nb, rs3⟩ := b
      rw [hb] at h
      simp only [Run.done.injEq, Prod.mk.injEq] at h
      obtain ⟨hpos, v, hv, hne⟩ := pickPos_done hp
      obtain ⟨hlt, old, hold, hno⟩ := pickByte_done hb
      exact ⟨pos, nb, old, v, hpos, hv, hne, hold, hno, hlt, h.1.symm⟩

/-- Changing a predicate from false to true at one point below `n` raises its count on `range n` by one. -/
theorem countP_range_update (f g : Nat → Bool) (pos : Nat) (hf : f pos = false)
    (hg : g pos = true) (h : ∀ p, p ≠ pos → g p = f p) (n : Nat) :
    (List.range n).countP g = (List.range n).countP f + (if pos < n then 1 else 0) := by
  induction n with
  | zero => simp
  | succ n ih =>
    rw [List.range_succ, List.countP_append, List.countP_append, ih]
    by_cases hn : pos = n
    · subst hn
      simp [List.countP_cons, hf, hg]
    · have h1 := h n (Ne.symm hn)
      by_cases hlt : pos < n
      · have : pos < n + 1 := by omega
        simp [List.countP_cons, h1, hlt, this]
        omega
      · have : ¬ pos < n + 1 := by omega
        simp [List.countP_cons, h1, hlt, this]

theorem Inv_init (input : List Nat) : Inv input (initState input) 0 := by
  refine ⟨rfl, by simp [initState], ?_, ?_, ?_, ?_, rfl, by simp [initState], ?_, ?_⟩
  · intro p hp
    simp only [initState, List.getElem?_replicate] at hp
    split_ifs at hp
    simp at hp
  · intro p hp _
    simp [initState, List.getElem?_replicate, hp]
  · simp [initState, List.count_replicate]
  · simp [initState, countDiff]
  · intro p
    simp only [initState, List.getElem?_replicate, List.map_nil, List.not_mem_nil, false_iff]
    split_ifs <;> simp
  · intro e he
    simp [initState] at he

theorem Inv_step {input : List Nat} {st st1 : MState} {rs rs1 : List Nat} {i : Nat}
    (hI : Inv input st i) (h : loopBody input.length st rs = Run.done (st1, rs1)) :
    Inv input st1 (i + 1) := by
  obtain ⟨pos, nb, old, v, hpos, hv, hne, hold, hno, hlt, rfl⟩ := loopBody_done h
  have hvne : st.mappos[pos]? ≠ some 0xFF := by rw [hv]; simpa using hne
  obtain ⟨_, hin⟩ := hI.unmarked pos hpos hvne
  have hposfc : pos < st.fcontents.length := by rw [hI.len_fc]; exact hpos
  have hposmp : pos < st.mappos.length := by rw [hI.len_mp]; exact hpos
  have hnotlog : pos ∉ st.log.map Prod.fst := fun hm => hvne ((hI.log_mem pos).1 hm)
  refine ⟨by simp [hI.len_fc], by simp [hI.len_mp], ?_, ?_, ?_, ?_, by simp [hI.log_len],
    ?_, ?_, ?_⟩
  · intro p hp
    by_cases hpp : pos = p
    · subst hpp
      simp only [List.getElem?_set, if_true, hposfc]
      refine ⟨?_, nb, rfl, hlt⟩
      rw [← hin, hold]
      simpa using hno
    · simp only [List.getElem?_set_ne hpp] at hp ⊢
      exact hI.marked p hp
  · intro p hp hnm
    by_cases hpp : pos = p
    · subst hpp
      simp [List.getElem?_set, hposmp] at hnm
    · simp only [List.getElem?_set_ne hpp] at hnm ⊢
      exact hI.unmarked p hp hnm
  · have hget : st.mappos[pos] = v := by
      have := List.getElem?_eq_getElem hposmp
      rw [hv] at this
      exact (Option.some.inj this).symm
    show (st.mappos.set pos 0xFF).count 0xFF = i + 1
    rw [List.count_set _ _ _ _ hposmp, hget, hI.count]
    simp [hne]
  · show countDiff input (st.fcontents.set pos nb) = i + 1
    rw [← hI.diff]
    unfold countDiff
    rw [countP_range_update (fun p => decide (st.fcontents[p]? ≠ input[p]?))
      (fun p => decide ((st.fcontents.set pos nb)[p]? ≠ input[p]?)) pos]
    · simp [hpos]
    · simp [hin]
    · simp only [List.getElem?_set, if_true, hposfc, decide_eq_true_eq]
      rw [← hin, hold]
      simpa using hno
    · intro p hp
      simp only [List.getElem?_set_ne (Ne.symm hp)]
  · show ((st.log ++ [(pos, nb)]).map Prod.fst).Nodup
    rw [List.map_append, List.nodup_append]
    refine ⟨hI.log_nodup, by simp, ?_⟩
    intro a ha hb
    simp only [List.map_cons, List.map_nil, List.mem_singleton] at hb
    subst hb
    exact hnotlog ha
  · intro p
    show p ∈ (st.log ++ [(pos, nb)]).map Prod.fst ↔ (st.mappos.set pos 0xFF)[p]? = some 0xFF
    rw [List.map_append, List.mem_append]
    by_cases hpp : pos = p
    · subst hpp
      simp [List.getElem?_set, hposmp]
    · rw [List.getElem?_set_ne hpp, ← hI.log_mem p]
      simp [Ne.symm hpp]
  · intro e he
    show (st.fcontents.set pos nb)[e.1]? = some e.2
    rw [List.mem_append] at he
    rcases he with he | he
    · have hne1 : pos ≠ e.1 := by
        intro hc
        apply hnotlog
        rw [hc]
        exact List.mem_map_of_mem _ he
      rw [List.getElem?_set_ne hne1]
      exact hI.log_val e he
    · simp only [List.mem_singleton] at he
      subst he
      simp [List.getElem?_set, hposfc]

theorem Inv_loop {input : List Nat} (k : Nat) : ∀ {st st1 : MState} {rs rs1 : List Nat} {i : Nat},
    Inv input st i → mutationLoop input.length k st rs = Run.done (st1, rs1) →
    Inv input st1 (i + k) := by
  induction k with
  | zero =>
    intro st st1 rs rs1 i hI h
    simp only [mutationLoop, Run.done.injEq, Prod.mk.injEq] at h
    rw [← h.1]
    exact hI
  | succ k ih =>
    intro st st1 rs rs1 i hI h
    unfold mutationLoop at h
    cases hb : loopBody input.length st rs with
    | starved => rw [hb] at h; simp at h
    | fault => rw [hb] at h; simp at h
    | done a =>
      obtain ⟨st2, rs2⟩ := a
      rw [hb] at h
      have := ih (Inv_step hI hb) h
      rw [show i + (k + 1) = i + 1 + k by omega]
      exact this

/-! ## Absence of faults, progress and divergence of the loop -/

/-- While fewer than `fsize` positions are marked, an unmarked position exists. -/
theorem exists_unmarked {input : List Nat} {st : MState} {i : Nat} (hI : Inv input st i)
    (h : i < input.length) : ∃ p, p < input.length ∧ st.mappos[p]? = some 0x00 := by
  by_contra hcon
  push_neg at hcon
  have hall : ∀ b ∈ st.mappos, 0xFF = b := by
    intro b hb
    obtain ⟨n, hn⟩ := List.mem_iff_getElem?.1 hb
    have hlt : n < input.length := by
      rw [← hI.len_mp]
      exact (List.getElem?_eq_some.1 hn).1
    by_contra hne
    have h1 : st.mappos[n]? ≠ some 0xFF := by
      rw [hn]
      intro hc
      exact hne (Option.some.inj hc).symm
    exact hcon n hlt (hI.unmarked n hlt h1).1
  have := List.count_eq_length.2 hall
  rw [hI.count, hI.len_mp] at this
  omega

/-- Once `fsize` positions are marked, every position is marked. -/
theorem all_marked {input : List Nat} {st : MState} (hI : Inv input st input.length) (p : Nat)
    (hp : p < input.length) : st.mappos[p]? = some 0xFF := by
  have hc : st.mappos.count 0xFF = st.mappos.length := by rw [hI.count, hI.len_mp]
  have hall := List.count_eq_length.1 hc
  have hlt : p < st.mappos.length := by rw [hI.len_mp]; exact hp
  rw [List.getElem?_eq_getElem hlt]
  exact congrArg some (hall _ (List.getElem_mem hlt)).symm

theorem Inv_le {input : List Nat} {st : MState} {i : Nat} (hI : Inv input st i) :
    i ≤ input.length := by
  rw [← hI.count, ← hI.len_mp]
  exact List.count_le_length _ _

theorem pickPos_hit {fsize : Nat} {mappos : List Nat} {p v : Nat} (hp : p < fsize)
    (hv : mappos[p]? = some v) (hne : v ≠ 0xFF) (rs : List Nat) :
    pickPos fsize mappos (p :: rs) = Run.done (p, rs) := by
  unfold pickPos
  rw [if_neg (by omega), Nat.mod_eq_of_lt hp, hv]
  simp [hne]

theorem pickByte_hit {fcontents : List Nat} {pos old : Nat} (h : fcontents[pos]? = some old)
    (rs : List Nat) :
    pickByte fcontents pos ((if old = 0 then 1 else 0) :: rs)
      = Run.done ((if old = 0 then 1 else 0), rs) := by
  unfold pickByte
  rw [h]
  by_cases h0 : old = 0
  · subst h0; simp
  · simp only [h0, if_false]
    rw [if_neg (by simpa using Ne.symm h0)]

/-- While fewer than `fsize` positions are marked, two suitable `rand()`
results complete an iteration. -/
theorem loopBody_progress {input : List Nat} {st : MState} {i : Nat} (hI : Inv input st i)
    (h : i < input.length) :
    ∃ r1 r2 st1, r1 < input.length ∧ r2 < 2 ∧
      ∀ rs, loopBody input.length st (r1 :: r2 :: rs) = Run.done (st1, rs) := by
  obtain ⟨p, hp, hm⟩ := exists_unmarked hI h
  have hlt : p < st.fcontents.length := by rw [hI.len_fc]; exact hp
  refine ⟨p, if st.fcontents[p] = 0 then 1 else 0,
    { fcontents := st.fcontents.set p (if st.fcontents[p] = 0 then 1 else 0),
      mappos := st.mappos.set p 0xFF,
      log := st.log ++ [(p, if st.fcontents[p] = 0 then 1 else 0)] },
    hp, by split_ifs <;> omega, ?_⟩
  intro rs
  unfold loopBody
  rw [pickPos_hit hp hm (by norm_num)]
  simp only
  rw [pickByte_hit (List.getElem?_eq_getElem hlt)]

/-- While at most `fsize` positions get marked, some supply of `rand()`
results, each below `fsize` or below 2, lets the loop run to completion. -/
theorem mutationLoop_complete {input : List Nat} (k : Nat) :
    ∀ {st : MState} {i : Nat}, Inv input st i → i + k ≤ input.length →
      ∃ rs st1, (∀ r ∈ rs, r < input.length ∨ r < 2) ∧
        mutationLoop input.length k st rs = Run.done (st1, []) := by
  induction k with
  | zero => intro st i _ _; exact ⟨[], st, by simp, rfl⟩
  | succ k ih =>
    intro st i hI hle
    obtain ⟨r1, r2, st1, h1, h2, hstep⟩ :=
      loopBody_progress hI (show i < input.length by omega)
    obtain ⟨rs, st2, hsmall, hrs⟩ := ih (Inv_step hI (hstep [])) (by omega)
    refine ⟨r1 :: r2 :: rs, st2, ?_, ?_⟩
    · intro r hr
      simp only [List.mem_cons] at hr
      rcases hr with hr | hr | hr
      · left; rw [hr]; exact h1
      · right; rw [hr]; exact h2
      · exact hsmall r hr
    · unfold mutationLoop
      rw [hstep rs]
      exact hrs

/-- Once every position is marked, the position loop cannot complete. -/
theorem pickPos_all_marked {fsize : Nat} {mappos : List Nat}
    (h : ∀ p : Nat, p < fsize → mappos[p]? = some 0xFF) (rs : List Nat) (a : Nat × List Nat) :
    pickPos fsize mappos rs ≠ Run.done a := by
  intro hc
  obtain ⟨pos, rs1⟩ := a
  obtain ⟨hlt, v, hv, hne⟩ := pickPos_done hc
  rw [h pos hlt] at hv
  exact hne (Option.some.inj hv).symm

theorem loopBody_all_marked {input : List Nat} {st : MState} (hI : Inv input st input.length)
    (rs : List Nat) (a : MState × List Nat) : loopBody input.length st rs ≠ Run.done a := by
  unfold loopBody
  cases hp : pickPos input.length st.mappos rs with
  | starved => simp
  | fault => simp
  | done b => exact absurd hp (pickPos_all_marked (all_marked hI) rs b)

/-- A loop asked to mark more than `fsize` positions never completes. -/
theorem mutationLoop_never {input : List Nat} (k : Nat) :
    ∀ {st : MState} {i : Nat} (rs : List Nat) (a : MState × List Nat), Inv input st i →
      input.length < i + k → mutationLoop input.length k st rs ≠ Run.done a := by
  induction k with
  | zero =>
    intro st i rs a hI hlt
    have := Inv_le hI
    omega
  | succ k ih =>
    intro st i rs a hI hlt
    unfold mutationLoop
    cases hb : loopBody input.length st rs with
    | starved => simp
    | fault => simp
    | done b =>
      obtain ⟨st1, rs1⟩ := b
      simp only
      have hle := Inv_le hI
      by_cases hi : i = input.length
      · subst hi
        exact absurd hb (loopBody_all_marked hI rs _)
      · exact ih rs1 a (Inv_step hI hb) (by omega)

theorem ilog2Aux_spec (fuel : Nat) : ∀ n : Nat, 0 < n → n ≤ fuel →
    2 ^ ilog2Aux fuel n ≤ n ∧ n < 2 ^ (ilog2Aux fuel n + 1) := by
  induction fuel with
  | zero => intro n h1 h2; omega
  | succ fuel ih =>
    intro n h1 h2
    unfold ilog2Aux
    by_cases h : 2 ≤ n
    · rw [if_pos h]
      obtain ⟨ha, hb⟩ := ih (n / 2) (by omega) (by omega)
      rw [pow_succ] at hb ⊢
      rw [pow_succ]
      constructor <;> omega
    · rw [if_neg h]
      have : n = 1 := by omega
      subst this
      simp

theorem ilog2_spec {n : Nat} (h : 0 < n) : 2 ^ ilog2 n ≤ n ∧ n < 2 ^ (ilog2 n + 1) :=
  ilog2Aux_spec n n h le_rfl

theorem roundHalfEven_near (n : Nat) {d : Nat} (hd : 0 < d) :
    2 * (roundHalfEven n d * d) ≤ 2 * n + d ∧ 2 * n ≤ 2 * (roundHalfEven n d * d) + d := by
  have hmod := Nat.mod_lt n hd
  obtain ⟨q, r, hq, hr, hn⟩ : ∃ q r, n / d = q ∧ n % d = r ∧ n = q * d + r :=
    ⟨_, _, rfl, rfl, by rw [Nat.mul_comm]; exact (Nat.div_add_mod n d).symm⟩
  unfold roundHalfEven
  simp only
  rw [hq, hr]
  rw [hr] at hmod
  split_ifs <;> constructor <;> (try rw [Nat.add_mul]) <;> omega

theorem roundHalfEven_mul (m : Nat) {d : Nat} (hd : 0 < d) : roundHalfEven (m * d) d = m := by
  unfold roundHalfEven
  simp [Nat.mul_div_cancel _ hd, hd]

theorem scale_up_hi {n d A B Q S : Nat} (hA2 : n < A * 2) (hB1 : B ≤ d) (e : A * S = B * Q)
    (hS : 0 < S) : n * S < 2 * Q * (d * 1) := by
  have h1 : n * S < A * 2 * S := Nat.mul_lt_mul_of_pos_right hA2 hS
  have h2 : B * Q ≤ d * Q := Nat.mul_le_mul_right Q hB1
  nlinarith

theorem scale_down_hi {n d A B Q T : Nat} (hA2 : n < A * 2) (hB1 : B ≤ d) (e : A = B * Q * T) :
    n < 2 * Q * (d * T) := by
  have h2 : B * (Q * T) ≤ d * (Q * T) := Nat.mul_le_mul_right (Q * T) hB1
  nlinarith

theorem scale_up_lo {n d A B Q S : Nat} (hA1 : A ≤ n) (hB2 : d < B * 2) (e : A * S = B * Q)
    (hQ : 0 < Q) : Q * (d * 1) ≤ n * (S * 2) := by
  have h1 : Q * d < Q * (B * 2) := Nat.mul_lt_mul_of_pos_left hB2 hQ
  have h2 : A * S ≤ n * S := Nat.mul_le_mul_right S hA1
  nlinarith

theorem scale_down_lo {n d A B Q T : Nat} (hA1 : A ≤ n) (hB2 : d < B * 2)
    (e : A = B * Q * (T * 2)) (hQ : 0 < Q) (hT : 0 < T) : Q * (d * T) ≤ n := by
  have h1 : Q * T * d < Q * T * (B * 2) := Nat.mul_lt_mul_of_pos_left hB2 (Nat.mul_pos hQ hT)
  nlinarith

/-- Shape of the result of `fpRound`: the significand is the rounding of the
value scaled into `[2^(P-1), 2^P)`. -/
theorem fpRound_spec {P n d : Nat} (hP : 1 ≤ P) (hn : 0 < n) (hd : 0 < d) :
    ∃ s t, fpRound P n d = (roundHalfEven (n * 2 ^ s) (d * 2 ^ t) * 2 ^ t, 2 ^ s) ∧
      (s = 0 ∨ t = 0) ∧ 2 ^ (P - 1) * (d * 2 ^ t) ≤ n * 2 ^ s ∧
      n * 2 ^ s < 2 ^ P * (d * 2 ^ t) := by
  obtain ⟨hA1, hA2⟩ := ilog2_spec hn
  obtain ⟨hB1, hB2⟩ := ilog2_spec hd
  have hPQ : 2 ^ P = 2 * 2 ^ (P - 1) := by
    rw [← pow_succ']
    congr 1
    omega
  have hc0 : 2 ^ (ilog2 d + (P - 1)) = 2 ^ ilog2 d * 2 ^ (P - 1) := pow_add _ _ _
  rw [pow_succ] at hA2 hB2
  have hQpos : 0 < 2 ^ (P - 1) := by positivity
  unfold fpRound
  rw [if_neg (by omega)]
  simp only
  by_cases hcond : 2 ^ (P - 1) * (d * 2 ^ (ilog2 n - (ilog2 d + (P - 1))))
      ≤ n * 2 ^ (ilog2 d + (P - 1) - ilog2 n)
  · rw [if_pos hcond]
    refine ⟨_, _, rfl, by omega, hcond, ?_⟩
    by_cases hL : ilog2 n ≤ ilog2 d + (P - 1)
    · have e1 : ilog2 n - (ilog2 d + (P - 1)) = 0 := by omega
      have e2 : 2 ^ ilog2 n * 2 ^ (ilog2 d + (P - 1) - ilog2 n) = 2 ^ ilog2 d * 2 ^ (P - 1) := by
        rw [← pow_add, ← hc0]
        congr 1
        omega
      rw [e1, hPQ, pow_zero]
      exact scale_up_hi hA2 hB1 e2 (by positivity)
    · have e1 : ilog2 d + (P - 1) - ilog2 n = 0 := by omega
      have e2 : 2 ^ ilog2 n
          = 2 ^ ilog2 d * 2 ^ (P - 1) * 2 ^ (ilog2 n - (ilog2 d + (P - 1))) := by
        rw [← hc0, ← pow_add]
        congr 1
        omega
      rw [e1, hPQ, pow_zero, Nat.mul_one]
      exact scale_down_hi hA2 hB1 e2
  · rw [if_neg hcond]
    rw [not_le] at hcond
    refine ⟨_, _, rfl, by omega, ?_⟩
    by_cases hL : ilog2 n ≤ ilog2 d + (P - 1)
    · have e1 : ilog2 n - (ilog2 d + (P - 1) + 1) = 0 := by omega
      have e0 : ilog2 n - (ilog2 d + (P - 1)) = 0 := by omega
      have e2 : 2 ^ ilog2 n * 2 ^ (ilog2 d + (P - 1) - ilog2 n) = 2 ^ ilog2 d * 2 ^ (P - 1) := by
        rw [← pow_add, ← hc0]
        congr 1
        omega
      have e3 : 2 ^ (ilog2 d + (P - 1) + 1 - ilog2 n)
          = 2 ^ (ilog2 d + (P - 1) - ilog2 n) * 2 := by
        rw [← pow_succ]
        congr 1
        omega
      rw [e0, pow_zero] at hcond
      rw [e1, e3, hPQ, pow_zero]
      refine ⟨scale_up_lo hA1 hB2 e2 hQpos, ?_⟩
      calc n * (2 ^ (ilog2 d + (P - 1) - ilog2 n) * 2)
          = 2 * (n * 2 ^ (ilog2 d + (P - 1) - ilog2 n)) := by ring
        _ < 2 * (2 ^ (P - 1) * (d * 1)) := Nat.mul_lt_mul_of_pos_left hcond (by norm_num)
        _ = 2 * 2 ^ (P - 1) * (d * 1) := by ring
    · have e1 : ilog2 d + (P - 1) + 1 - ilog2 n = 0 := by omega
      have e0 : ilog2 d + (P - 1) - ilog2 n = 0 := by omega
      have e3 : 2 ^ (ilog2 n - (ilog2 d + (P - 1)))
          = 2 ^ (ilog2 n - (ilog2 d + (P - 1) + 1)) * 2 := by
        rw [← pow_succ]
        congr 1
        omega
      have e2 : 2 ^ ilog2 n
          = 2 ^ ilog2 d * 2 ^ (P - 1) * (2 ^ (ilog2 n - (ilog2 d + (P - 1) + 1)) * 2) := by
        rw [← e3, ← hc0, ← pow_add]
        congr 1
        omega
      rw [e0, e3, pow_zero, Nat.mul_one] at hcond
      rw [e1, hPQ, pow_zero, Nat.mul_one]
      refine ⟨scale_down_lo hA1 hB2 e2 hQpos (by positivity), ?_⟩
      calc n < 2 ^ (P - 1) * (d * (2 ^ (ilog2 n - (ilog2 d + (P - 1) + 1)) * 2)) := hcond
        _ = 2 * 2 ^ (P - 1) * (d * 2 ^ (ilog2 n - (ilog2 d + (P - 1) + 1))) := by ring

theorem fpRound_den_pos (P n d : Nat) : 0 < (fpRound P n d).2 := by
  unfold fpRound
  split_ifs
  · norm_num
  · simp only
    positivity

/-- A value that is an integer below `2^P` is not changed by rounding. -/
theorem fpRound_exact {P d M : Nat} (hP : 1 ≤ P) (hd : 0 < d) (hM : M < 2 ^ P) :
    (fpRound P (M * d) d).1 = M * (fpRound P (M * d) d).2 := by
  rcases Nat.eq_zero_or_pos M with h0 | hpos
  · subst h0
    simp [fpRound]
  · obtain ⟨s, t, heq, hst, hlo, _⟩ := fpRound_spec hP (Nat.mul_pos hpos hd) hd
    have hPQ : 2 ^ P = 2 * 2 ^ (P - 1) := by
      rw [← pow_succ']
      congr 1
      omega
    have ht : t = 0 := by
      rcases hst with hs | ht
      · subst hs
        by_contra hne
        have h2 : 2 ^ 1 ≤ 2 ^ t := Nat.pow_le_pow_right (by norm_num) (by omega)
        rw [pow_zero, Nat.mul_one] at hlo
        rw [hPQ] at hM
        have h3 : 2 ^ (P - 1) * (d * 2 ^ 1) ≤ 2 ^ (P - 1) * (d * 2 ^ t) :=
          Nat.mul_le_mul_left _ (Nat.mul_le_mul_left _ h2)
        have h4 : M * d < 2 * 2 ^ (P - 1) * d := Nat.mul_lt_mul_of_pos_right hM hd
        nlinarith
      · exact ht
    subst ht
    rw [heq]
    simp only [pow_zero, Nat.mul_one]
    rw [show M * d * 2 ^ s = (M * 2 ^ s) * d by ring, roundHalfEven_mul _ hd]

/-- Relative error of one rounding: at most `2^(-P)`. -/
theorem fpRound_err {P : Nat} (n : Nat) {d : Nat} (hP : 1 ≤ P) (hd : 0 < d) :
    ((fpRound P n d).1 : ℚ) / (fpRound P n d).2 ≤ (n : ℚ) / d * (1 + 1 / 2 ^ P) ∧
    (n : ℚ) / d * (1 - 1 / 2 ^ P) ≤ ((fpRound P n d).1 : ℚ) / (fpRound P n d).2 := by
  rcases Nat.eq_zero_or_pos n with h0 | hpos
  · subst h0
    simp [fpRound]
  · obtain ⟨s, t, heq, _, hlo, _⟩ := fpRound_spec hP hpos hd
    have hPQ : (2 : ℚ) ^ P = 2 * 2 ^ (P - 1) := by
      rw [← pow_succ']
      congr 1
      omega
    obtain ⟨h1, h2⟩ := roundHalfEven_near (n * 2 ^ s) (show 0 < d * 2 ^ t by positivity)
    rw [heq]
    simp only
    generalize roundHalfEven (n * 2 ^ s) (d * 2 ^ t) = m at h1 h2
    have h1q : (2 : ℚ) * (m * (d * 2 ^ t)) ≤ 2 * (n * 2 ^ s) + d * 2 ^ t := by exact_mod_cast h1
    have h2q : (2 : ℚ) * (n * 2 ^ s) ≤ 2 * (m * (d * 2 ^ t)) + d * 2 ^ t := by exact_mod_cast h2
    have hloq : (2 : ℚ) ^ (P - 1) * (d * 2 ^ t) ≤ n * 2 ^ s := by exact_mod_cast hlo
    have hdq : (0 : ℚ) < d := by exact_mod_cast hd
    have hS : (0 : ℚ) < 2 ^ s := by positivity
    have hT : (0 : ℚ) < 2 ^ t := by positivity
    have hQ : (0 : ℚ) < 2 ^ (P - 1) := by positivity
    push_cast
    rw [hPQ]
    generalize (2 : ℚ) ^ s = S at *
    generalize (2 : ℚ) ^ t = T at *
    generalize (2 : ℚ) ^ (P - 1) = Q at *
    generalize (n : ℚ) = x at *
    generalize (d : ℚ) = y at *
    generalize (m : ℚ) = z at *
    constructor
    · rw [div_le_iff₀ hS]
      have e : x / y * (1 + 1 / (2 * Q)) * S = (x * S * (2 * Q + 1)) / (y * (2 * Q)) := by
        field_simp
        ring
      rw [e, le_div_iff₀ (by positivity)]
      nlinarith
    · rw [le_div_iff₀ hS]
      have e : x / y * (1 - 1 / (2 * Q)) * S = (x * S * (2 * Q - 1)) / (y * (2 * Q)) := by
        field_simp
        ring
      rw [e, div_le_iff₀ (by positivity)]
      nlinarith

/-- Two roundings with relative error `2^(-53)` move a product below `2^48 / 100` by less than `1 / 100`. -/
theorem two_roundings {x u v f : ℚ} (hf : 0 ≤ f) (hx : 0 ≤ x) (hfx : f * x * 100 ≤ 2 ^ 48)
    (hu1 : u ≤ x * (1 + 1 / 2 ^ 53)) (hu2 : x * (1 - 1 / 2 ^ 53) ≤ u)
    (hv1 : v ≤ f * u * (1 + 1 / 2 ^ 53)) (hv2 : f * u * (1 - 1 / 2 ^ 53) ≤ v) :
    f * x - 1 / 100 < v ∧ v < f * x + 1 / 100 := by
  have hy : 0 ≤ f * x := mul_nonneg hf hx
  have h1 : f * u ≤ f * (x * (1 + 1 / 2 ^ 53)) := mul_le_mul_of_nonneg_left hu1 hf
  have h2 : f * (x * (1 - 1 / 2 ^ 53)) ≤ f * u := mul_le_mul_of_nonneg_left hu2 hf
  have h3 : f * u * (1 + 1 / 2 ^ 53) ≤ f * (x * (1 + 1 / 2 ^ 53)) * (1 + 1 / 2 ^ 53) :=
    mul_le_mul_of_nonneg_right h1 (by norm_num)
  have h4 : f * (x * (1 - 1 / 2 ^ 53)) * (1 - 1 / 2 ^ 53) ≤ f * u * (1 - 1 / 2 ^ 53) :=
    mul_le_mul_of_nonneg_right h2 (by norm_num)
  have e3 : f * (x * (1 + 1 / 2 ^ 53)) * (1 + 1 / 2 ^ 53)
      = (f * x) * ((1 + 1 / 2 ^ 53) * (1 + 1 / 2 ^ 53)) := by ring
  have e4 : f * (x * (1 - 1 / 2 ^ 53)) * (1 - 1 / 2 ^ 53)
      = (f * x) * ((1 - 1 / 2 ^ 53) * (1 - 1 / 2 ^ 53)) := by ring
  rw [e3] at h3
  rw [e4] at h4
  generalize f * x = y at *
  norm_num at h3 h4 hfx
  constructor <;> linarith

/-- The value that `nbytes` truncates lies within `1 / 100` of `fsize * percent / 100`. -/
theorem nbytesMag_val {f p : Nat} (hf : f < 2 ^ 24) (hp : p < 2 ^ 24) :
    ∃ a b : Nat, 0 < b ∧ nbytesMag f p = a / b ∧
      (f : ℚ) * p / 100 - 1 / 100 < (a : ℚ) / b ∧ (a : ℚ) / b < (f : ℚ) * p / 100 + 1 / 100 := by
  have hF := fpRound_exact (P := 24) (d := 1) (M := f) (by norm_num) (by norm_num) hf
  have hP := fpRound_exact (P := 24) (d := 1) (M := p) (by norm_num) (by norm_num) hp
  rw [Nat.mul_one] at hF hP
  have hF2 := fpRound_den_pos 24 f 1
  have hP2 := fpRound_den_pos 24 p 1
  have hq := fpRound_err (P := 53) ((fpRound 24 p 1).1 * 1) (d := (fpRound 24 p 1).2 * 100)
    (by norm_num) (by positivity)
  have hq2 := fpRound_den_pos 53 ((fpRound 24 p 1).1 * 1) ((fpRound 24 p 1).2 * 100)
  have hm := fpRound_err (P := 53)
    ((fpRound 24 f 1).1 * (fpRound 53 ((fpRound 24 p 1).1 * 1) ((fpRound 24 p 1).2 * 100)).1)
    (d := (fpRound 24 f 1).2 * (fpRound 53 ((fpRound 24 p 1).1 * 1) ((fpRound 24 p 1).2 * 100)).2)
    (by norm_num) (by positivity)
  have hm2 := fpRound_den_pos 53
    ((fpRound 24 f 1).1 * (fpRound 53 ((fpRound 24 p 1).1 * 1) ((fpRound 24 p 1).2 * 100)).1)
    ((fpRound 24 f 1).2 * (fpRound 53 ((fpRound 24 p 1).1 * 1) ((fpRound 24 p 1).2 * 100)).2)
  have hdef : nbytesMag f p = (fpRound 53
    ((fpRound 24 f 1).1 * (fpRound 53 ((fpRound 24 p 1).1 * 1) ((fpRound 24 p 1).2 * 100)).1)
    ((fpRound 24 f 1).2 * (fpRound 53 ((fpRound 24 p 1).1 * 1) ((fpRound 24 p 1).2 * 100)).2)).1
    / (fpRound 53
    ((fpRound 24 f 1).1 * (fpRound 53 ((fpRound 24 p 1).1 * 1) ((fpRound 24 p 1).2 * 100)).1)
    ((fpRound 24 f 1).2 * (fpRound 53 ((fpRound 24 p 1).1 * 1) ((fpRound 24 p 1).2 * 100)).2)).2 :=
    rfl
  generalize fpRound 53
    ((fpRound 24 f 1).1 * (fpRound 53 ((fpRound 24 p 1).1 * 1) ((fpRound 24 p 1).2 * 100)).1)
    ((fpRound 24 f 1).2 * (fpRound 53 ((fpRound 24 p 1).1 * 1) ((fpRound 24 p 1).2 * 100)).2)
    = m at hm hm2 hdef
  refine ⟨m.1, m.2, hm2, hdef, ?_⟩
  clear hdef
  generalize fpRound 53 ((fpRound 24 p 1).1 * 1) ((fpRound 24 p 1).2 * 100) = q at hq hq2 hm
  generalize fpRound 24 f 1 = F at hF hF2 hm
  generalize fpRound 24 p 1 = G at hP hP2 hq
  have hF2q : (0 : ℚ) < F.2 := by exact_mod_cast hF2
  have hP2q : (0 : ℚ) < G.2 := by exact_mod_cast hP2
  have hq2q : (0 : ℚ) < q.2 := by exact_mod_cast hq2
  have e1 : ((G.1 * 1 : Nat) : ℚ) / ((G.2 * 100 : Nat) : ℚ) = (p : ℚ) / 100 := by
    rw [hP]
    push_cast
    field_simp
    ring
  have e2 : ((F.1 * q.1 : Nat) : ℚ) / ((F.2 * q.2 : Nat) : ℚ) = (f : ℚ) * ((q.1 : ℚ) / q.2) := by
    rw [hF]
    push_cast
    field_simp
    ring
  rw [e1] at hq
  rw [e2] at hm
  have hfp : (f : ℚ) * ((p : ℚ) / 100) * 100 ≤ 2 ^ 48 := by
    have h1 : f * p ≤ 2 ^ 24 * 2 ^ 24 := Nat.mul_le_mul hf.le hp.le
    have h2 : ((f * p : Nat) : ℚ) ≤ ((2 ^ 24 * 2 ^ 24 : Nat) : ℚ) := by exact_mod_cast h1
    push_cast at h2
    have e : (f : ℚ) * ((p : ℚ) / 100) * 100 = f * p := by field_simp
    rw [e]
    norm_num at h2 ⊢
    exact h2
  have := two_roundings (Nat.cast_nonneg f) (by positivity) hfp hq.1 hq.2 hm.1 hm.2
  rw [show (f : ℚ) * p / 100 = f * ((p : ℚ) / 100) by ring]
  exact this

/-- For a file below 16 MiB and a percentage below `2^24`, `nbytes` is the
exact quotient `fsize * percent / 100` or one less, and it is the exact
quotient whenever `fsize * percent` is not a multiple of 100. -/
theorem nbytesMag_bounds {f p : Nat} (hf : f < 2 ^ 24) (hp : p < 2 ^ 24) :
    nbytesMag f p ≤ f * p / 100 ∧ f * p / 100 ≤ nbytesMag f p + 1 ∧
      (f * p % 100 ≠ 0 → nbytesMag f p = f * p / 100) := by
  obtain ⟨a, b, hb, hab, hlo, hhi⟩ := nbytesMag_val hf hp
  have hbq : (0 : ℚ) < b := by exact_mod_cast hb
  have hfl1 : ((a / b : Nat) : ℚ) ≤ (a : ℚ) / b := by
    rw [le_div_iff₀ hbq]
    exact_mod_cast Nat.div_mul_le_self a b
  have hfl2 : (a : ℚ) / b < ((a / b : Nat) : ℚ) + 1 := by
    rw [div_lt_iff₀ hbq]
    have := Nat.lt_succ_iff.2 (Nat.le_refl (a / b))
    have h2 : a < (a / b + 1) * b := by
      have h3 := Nat.div_add_mod a b
      have h4 := Nat.mod_lt a hb
      rw [Nat.add_mul, Nat.mul_comm (a / b) b]
      omega
    exact_mod_cast h2
  rw [← hab] at hfl1 hfl2
  have hK := Nat.div_add_mod (f * p) 100
  have hKr := Nat.mod_lt (f * p) (show 0 < 100 by norm_num)
  have hKq : (f : ℚ) * p = 100 * ((f * p / 100 : Nat) : ℚ) + ((f * p % 100 : Nat) : ℚ) := by
    exact_mod_cast hK.symm
  have hKrq : ((f * p % 100 : Nat) : ℚ) ≤ 99 := by
    have : f * p % 100 ≤ 99 := by omega
    exact_mod_cast this
  have hKr0 : (0 : ℚ) ≤ ((f * p % 100 : Nat) : ℚ) := Nat.cast_nonneg _
  refine ⟨?_, ?_, ?_⟩
  · have h : ((nbytesMag f p : Nat) : ℚ) < ((f * p / 100 : Nat) : ℚ) + 1 := by linarith
    have h2 : nbytesMag f p < f * p / 100 + 1 := by exact_mod_cast h
    omega
  · have h : ((f * p / 100 : Nat) : ℚ) < ((nbytesMag f p : Nat) : ℚ) + 2 := by linarith
    have h2 : f * p / 100 < nbytesMag f p + 2 := by exact_mod_cast h
    omega
  · intro hne
    have h1 : (1 : ℚ) ≤ ((f * p % 100 : Nat) : ℚ) := by
      have : 1 ≤ f * p % 100 := by omega
      exact_mod_cast this
    have h : ((f * p / 100 : Nat) : ℚ) < ((nbytesMag f p : Nat) : ℚ) + 1 := by linarith
    have h2 : f * p / 100 < nbytesMag f p + 1 := by exact_mod_cast h
    have h3 : ((nbytesMag f p : Nat) : ℚ) < ((f * p / 100 : Nat) : ℚ) + 1 := by linarith
    have h4 : nbytesMag f p < f * p / 100 + 1 := by exact_mod_cast h3
    omega

/-- At `percent = 100` and a file below 16 MiB every conversion is exact. -/
theorem nbytesMag_hundred {f : Nat} (hf : f < 2 ^ 24) : nbytesMag f 100 = f := by
  have hF := fpRound_exact (P := 24) (d := 1) (M := f) (by norm_num) (by norm_num) hf
  have hP := fpRound_exact (P := 24) (d := 1) (M := 100) (by norm_num) (by norm_num)
    (by norm_num)
  rw [Nat.mul_one] at hF hP
  have hP2 := fpRound_den_pos 24 100 1
  have hq := fpRound_exact (P := 53) (d := (fpRound 24 100 1).2 * 100) (M := 1) (by norm_num)
    (by positivity) (by norm_num)
  have hq2 := fpRound_den_pos 53 ((fpRound 24 100 1).1 * 1) ((fpRound 24 100 1).2 * 100)
  rw [show 1 * ((fpRound 24 100 1).2 * 100) = (fpRound 24 100 1).1 * 1 by rw [hP]; ring,
    Nat.one_mul] at hq
  have hF2 := fpRound_den_pos 24 f 1
  have hm := fpRound_exact (P := 53)
    (d := (fpRound 24 f 1).2 * (fpRound 53 ((fpRound 24 100 1).1 * 1) ((fpRound 24 100 1).2 * 100)).2)
    (M := f) (by norm_num) (by positivity) (lt_trans hf (by norm_num))
  have hm2 := fpRound_den_pos 53
    ((fpRound 24 f 1).1 * (fpRound 53 ((fpRound 24 100 1).1 * 1) ((fpRound 24 100 1).2 * 100)).1)
    ((fpRound 24 f 1).2 * (fpRound 53 ((fpRound 24 100 1).1 * 1) ((fpRound 24 100 1).2 * 100)).2)
  rw [show f * ((fpRound 24 f 1).2 *
      (fpRound 53 ((fpRound 24 100 1).1 * 1) ((fpRound 24 100 1).2 * 100)).2)
    = (fpRound 24 f 1).1 * (fpRound 53 ((fpRound 24 100 1).1 * 1) ((fpRound 24 100 1).2 * 100)).1
    by rw [hq, hF]; ring] at hm
  show (fpRound 53
    ((fpRound 24 f 1).1 * (fpRound 53 ((fpRound 24 100 1).1 * 1) ((fpRound 24 100 1).2 * 100)).1)
    ((fpRound 24 f 1).2 * (fpRound 53 ((fpRound 24 100 1).1 * 1) ((fpRound 24 100 1).2 * 100)).2)).1
    / (fpRound 53
    ((fpRound 24 f 1).1 * (fpRound 53 ((fpRound 24 100 1).1 * 1) ((fpRound 24 100 1).2 * 100)).1)
    ((fpRound 24 f 1).2 * (fpRound 53 ((fpRound 24 100 1).1 * 1) ((fpRound 24 100 1).2 * 100)).2)).2
    = f
  rw [hm]
  exact Nat.mul_div_cancel _ hm2

theorem nbytes_of_natCast (f p : Nat) : nbytes_of f (p : Int) = (nbytesMag f p : Int) := by
  unfold nbytes_of
  rw [if_neg (by omega)]
  simp

theorem nbytes_of_nonneg (f : Nat) {percent : Int} (h : 0 ≤ percent) :
    0 ≤ nbytes_of f percent := by
  unfold nbytes_of
  rw [if_neg (by omega)]
  exact Int.natCast_nonneg _

theorem nbytesMag_zero (p : Nat) : nbytesMag 0 p = 0 := by
  simp [nbytesMag, toFloat, doubleMul, truncToLong, fpRound]

theorem nbytes_of_zero (percent : Int) : nbytes_of 0 percent = 0 := by
  unfold nbytes_of
  rw [nbytesMag_zero]
  simp

/-- A run of `modify_file` that returns 0 ran the loop to completion and
wrote the final buffer. -/
theorem modify_file_success {env : Env} {percent : Int} {rs : List Nat}
    {out : Option (List Nat)} (h : modify_file env percent rs = Run.done (0, out)) :
    ∃ input st rs1, env.fopen_in = some input ∧
      mutationLoop input.length (nbytes_of input.length percent).toNat (initState input) rs
        = Run.done (st, rs1) ∧ out = some st.fcontents := by
  unfold modify_file at h
  cases hin : env.fopen_in with
  | none => rw [hin] at h; simp at h
  | some input =>
    rw [hin] at h
    simp only at h
    split_ifs at h
    · simp at h
    · simp at h
    · simp at h
    · cases hl : mutationLoop input.length (nbytes_of input.length percent).toNat
          (initState input) rs with
      | starved => rw [hl] at h; simp at h
      | fault => rw [hl] at h; simp at h
      | done a =>
        obtain ⟨st, rs1⟩ := a
        rw [hl] at h
        simp only [Run.done.injEq, Prod.mk.injEq, true_and] at h
        exact ⟨input, st, rs1, rfl, hl, h.symm⟩

theorem parseArgs_percent (opts : List Opt) : ∀ (a0 a : Args),
    (∀ v, Opt.percent v ∉ opts) → parseArgs opts a0 = some a → a.percent = a0.percent := by
  induction opts with
  | nil =>
    intro a0 a _ h
    simp only [parseArgs, Option.some.injEq] at h
    rw [h]
  | cons o os ih =>
    intro a0 a hno h
    have hno1 : ∀ v, Opt.percent v ∉ os := fun v hv => hno v (List.mem_cons_of_mem _ hv)
    cases o with
    | help => simp [parseArgs] at h
    | file s =>
      have h2 : parseArgs os { a0 with input_filename := some s } = some a := h
      exact ih { a0 with input_filename := some s } a hno1 h2
    | outdir s =>
      have h2 : parseArgs os { a0 with outdir := some s } = some a := h
      exact ih { a0 with outdir := some s } a hno1 h2
    | percent v => exact absurd (List.mem_cons_self _ _) (hno v)
    | other => exact ih _ a hno1 h

/-! ## The claims -/

/-- C1: for every input buffer, every percentage that is not negative (in
particular 1..100) and every sequence of `rand()` results on which the
mutation loop runs to completion, the number of positions at which the output
differs from the input equals `nbytes`; exactly `nbytes` positions of `mappos`
are marked, they are the pairwise distinct positions the iterations chose, and
each was written once. -/
theorem C1_mutated_count_eq_nbytes (input : List Nat) (percent : Int) (rs rs1 : List Nat)
    (st : MState) (hp : 0 ≤ percent)
    (h : mutationLoop input.length (nbytes_of input.length percent).toNat (initState input) rs
      = Run.done (st, rs1)) :
    (countDiff input st.fcontents : Int) = nbytes_of input.length percent ∧
    (st.mappos.count 0xFF : Int) = nbytes_of input.length percent ∧
    (st.log.length : Int) = nbytes_of input.length percent ∧
    (st.log.map Prod.fst).Nodup ∧
    (∀ p : Nat, p ∈ st.log.map Prod.fst ↔ st.mappos[p]? = some 0xFF) := by
  have hI := Inv_loop _ (Inv_init input) h
  have hn := Int.toNat_of_nonneg (nbytes_of_nonneg input.length hp)
  rw [Nat.zero_add] at hI
  refine ⟨?_, ?_, ?_, hI.log_nodup, hI.log_mem⟩
  · rw [hI.diff]; exact hn
  · rw [hI.count]; exact hn
  · rw [hI.log_len]; exact hn

theorem C1_mutated_count_eq_nbytes_witness :
    mutationLoop 5 (nbytes_of 5 40).toNat (initState [1, 2, 3, 4, 255]) [3, 3, 9, 8, 259, 4, 4]
      = Run.done (⟨[1, 2, 3, 3, 8], [0, 0, 0, 255, 255], [(3, 3), (4, 8)]⟩, [259, 4, 4]) ∧
    (countDiff [1, 2, 3, 4, 255] [1, 2, 3, 3, 8] : Int) = nbytes_of 5 40 :=
  ⟨by decide,
   (C1_mutated_count_eq_nbytes [1, 2, 3, 4, 255] 40 [3, 3, 9, 8, 259, 4, 4] [259, 4, 4]
      ⟨[1, 2, 3, 3, 8], [0, 0, 0, 255, 255], [(3, 3), (4, 8)]⟩ (by decide) (by decide)).1⟩

/-- C2: after a completed run of the mutation loop, at every selected position
(`mappos[p] == 0xFF`) the output byte differs from the input byte. -/
theorem C2_selected_differs (input : List Nat) (nbytes : Nat) (rs rs1 : List Nat) (st : MState)
    (h : mutationLoop input.length nbytes (initState input) rs = Run.done (st, rs1))
    (p : Nat) (hp : st.mappos[p]? = some 0xFF) :
    ∃ a b, input[p]? = some a ∧ st.fcontents[p]? = some b ∧ b ≠ a := by
  have hI := Inv_loop _ (Inv_init input) h
  obtain ⟨hne, v, hv, _⟩ := hI.marked p hp
  have hlt : p < input.length := by
    rw [← hI.len_fc]
    exact (List.getElem?_eq_some.1 hv).1
  refine ⟨input[p], v, List.getElem?_eq_getElem hlt, hv, ?_⟩
  intro hc
  apply hne
  rw [hv, List.getElem?_eq_getElem hlt, hc]

theorem C2_selected_differs_witness :
    ∃ a b, [1, 2, 3, 4, 255][3]? = some a ∧ [1, 2, 3, 3, 8][3]? = some b ∧ b ≠ a :=
  C2_selected_differs [1, 2, 3, 4, 255] 2 [3, 3, 9, 8, 259, 4, 4] [259, 4, 4]
    ⟨[1, 2, 3, 3, 8], [0, 0, 0, 255, 255], [(3, 3), (4, 8)]⟩ (by decide) 3 (by decide)

/-- C3: after a completed run of the mutation loop, every position of the file
that was not selected still has its mark `0x00` and its input byte. -/
theorem C3_unselected_unchanged (input : List Nat) (nbytes : Nat) (rs rs1 : List Nat)
    (st : MState)
    (h : mutationLoop input.length nbytes (initState input) rs = Run.done (st, rs1))
    (p : Nat) (hp : p < input.length) (hm : st.mappos[p]? ≠ some 0xFF) :
    st.mappos[p]? = some 0x00 ∧ st.fcontents[p]? = input[p]? :=
  (Inv_loop _ (Inv_init input) h).unmarked p hp hm

theorem C3_unselected_unchanged_witness :
    [0, 0, 0, 255, 255][1]? = some 0x00 ∧ [1, 2, 3, 3, 8][1]? = [1, 2, 3, 4, 255][1]? :=
  C3_unselected_unchanged [1, 2, 3, 4, 255] 2 [3, 3, 9, 8, 259, 4, 4] [259, 4, 4]
    ⟨[1, 2, 3, 3, 8], [0, 0, 0, 255, 255], [(3, 3), (4, 8)]⟩ (by decide) 1 (by decide)
    (by decide)

/-- C4: a run of `modify_file` that returns 0 writes exactly as many bytes as
the input file holds, whatever the percentage and the `rand()` results; and
for an empty input `nbytes` is 0, the loop consumes no `rand()` result, and
the run returns 0 with an empty output. -/
theorem C4_output_length (env : Env) (percent : Int) (rs : List Nat) :
    (∀ out, modify_file env percent rs = Run.done (0, out) →
      ∃ input bytes, env.fopen_in = some input ∧ out = some bytes ∧
        bytes.length = input.length) ∧
    nbytes_of 0 percent = 0 ∧
    mutationLoop 0 (nbytes_of 0 percent).toNat (initState []) rs
      = Run.done (initState [], rs) ∧
    (env.fopen_in = some [] → env.malloc_outfilename = true → env.fopen_out = true →
      env.malloc_fcontents = true → env.malloc_mappos = true →
      modify_file env percent rs = Run.done (0, some [])) := by
  refine ⟨?_, nbytes_of_zero percent, ?_, ?_⟩
  · intro out h
    obtain ⟨input, st, rs1, hin, hl, hout⟩ := modify_file_success h
    exact ⟨input, st.fcontents, hin, hout, (Inv_loop _ (Inv_init input) hl).len_fc⟩
  · rw [nbytes_of_zero]
    rfl
  · intro h1 h2 h3 h4 h5
    unfold modify_file
    rw [h1]
    simp only [h2, h3, h4, h5, List.length_nil, nbytes_of_zero]
    rfl

theorem C4_output_length_witness :
    modify_file ⟨some [1, 2, 3, 4, 255], true, true, true, true⟩ 40 [3, 3, 9, 8, 259, 4, 4]
      = Run.done (0, some [1, 2, 3, 3, 8]) ∧
    ∃ input bytes, some [1, 2, 3, 4, 255] = some input ∧ some [1, 2, 3, 3, 8] = some bytes ∧
      bytes.length = input.length :=
  ⟨by decide,
   (C4_output_length ⟨some [1, 2, 3, 4, 255], true, true, true, true⟩ 40
      [3, 3, 9, 8, 259, 4, 4]).1 (some [1, 2, 3, 3, 8]) (by decide)⟩

/-- C5 (counterexample): at `percent = 200` and a file of 5 bytes `nbytes`
is 10, not 5, and the loop completes on no sequence of `rand()` results; at
`percent = 100` and a file of `2^24 + 1` bytes `nbytes` is `2^24`. -/
theorem C5_counterexample :
    nbytes_of 5 200 = 10 ∧ nbytes_of 5 200 ≠ 5 ∧ nbytes_of 16777217 100 = 16777216 ∧
    ∀ rs a, mutationLoop 5 (nbytes_of 5 200).toNat (initState [1, 2, 3, 4, 5]) rs
      ≠ Run.done a := by
  refine ⟨by decide, by decide, by decide, ?_⟩
  intro rs a
  have e : (nbytes_of 5 200).toNat = 10 := by decide
  rw [e]
  exact @mutationLoop_never [1, 2, 3, 4, 5] 10 _ 0 rs a (Inv_init _) (by decide)

/-- C5 (amended): at `percent = 100` and a file below `2^24` bytes, `nbytes`
equals `fsize`; some sequence of `rand()` results, each below `fsize` or
below 2, lets the loop complete, and after every completed run the output has
the length of the input and differs from it at every position. -/
theorem C5_every_byte_at_100 (input : List Nat) (hf : input.length < 2 ^ 24) :
    nbytes_of input.length 100 = input.length ∧
    (∃ rs st, (∀ r ∈ rs, r < input.length ∨ r < 2) ∧
      mutationLoop input.length (nbytes_of input.length 100).toNat (initState input) rs
        = Run.done (st, [])) ∧
    (∀ rs st rs1,
      mutationLoop input.length (nbytes_of input.length 100).toNat (initState input) rs
        = Run.done (st, rs1) →
      st.fcontents.length = input.length ∧
      ∀ p : Nat, p < input.length →
        ∃ a b, input[p]? = some a ∧ st.fcontents[p]? = some b ∧ b ≠ a) := by
  have hn : nbytes_of input.length 100 = input.length := by
    have := nbytes_of_natCast input.length 100
    rw [nbytesMag_hundred hf] at this
    exact_mod_cast this
  have hn2 : (nbytes_of input.length 100).toNat = input.length := by
    rw [hn]
    exact Int.toNat_ofNat _
  rw [hn2]
  refine ⟨hn, mutationLoop_complete _ (Inv_init input) (by omega), ?_⟩
  intro rs st rs1 h
  have hI := Inv_loop _ (Inv_init input) h
  rw [Nat.zero_add] at hI
  refine ⟨hI.len_fc, ?_⟩
  intro p hp
  obtain ⟨hne, v, hv, _⟩ := hI.marked p (all_marked hI p hp)
  refine ⟨input[p], v, List.getElem?_eq_getElem hp, hv, ?_⟩
  intro hc
  apply hne
  rw [hv, List.getElem?_eq_getElem hp, hc]

theorem C5_every_byte_at_100_witness :
    [1, 2, 3, 4, 255].length < 2 ^ 24 ∧ nbytes_of [1, 2, 3, 4, 255].length 100 = 5 :=
  ⟨by decide, (C5_every_byte_at_100 [1, 2, 3, 4, 255] (by decide)).1⟩

/-- C6 (counterexample): `nbytes` exceeds `fsize` at `fsize = 3`,
`percent = 150`, and also at `percent = 100` for `fsize = 16777219`, which
the conversion to `float` rounds up. -/
theorem C6_counterexample :
    ¬ (nbytes_of 3 150 ≤ 3) ∧ ¬ (nbytes_of 16777219 100 ≤ 16777219) := by
  constructor <;> decide

/-- C6 (amended): for a percentage in 0..100 and a file below `2^24` bytes,
`0 ≤ nbytes ≤ fsize`. -/
theorem C6_nbytes_le_fsize (fsize : Nat) (percent : Int) (hf : fsize < 2 ^ 24)
    (h0 : 0 ≤ percent) (h100 : percent ≤ 100) :
    0 ≤ nbytes_of fsize percent ∧ nbytes_of fsize percent ≤ fsize := by
  refine ⟨nbytes_of_nonneg fsize h0, ?_⟩
  obtain ⟨p, rfl⟩ := Int.eq_ofNat_of_zero_le h0
  have hp : p ≤ 100 := by exact_mod_cast h100
  rw [nbytes_of_natCast]
  obtain ⟨h1, _, _⟩ := nbytesMag_bounds hf (show p < 2 ^ 24 by
    have : (100 : Nat) < 2 ^ 24 := by norm_num
    omega)
  have h2 : fsize * p / 100 ≤ fsize := by
    apply Nat.div_le_of_le_mul
    rw [Nat.mul_comm 100 fsize]
    exact Nat.mul_le_mul_left _ hp
  exact_mod_cast le_trans h1 h2

theorem C6_nbytes_le_fsize_witness : 0 ≤ nbytes_of 100 29 ∧ nbytes_of 100 29 ≤ (100 : Nat) :=
  C6_nbytes_le_fsize 100 29 (by decide) (by decide) (by decide)

/-- C7 (counterexample): at `fsize = 100`, `percent = 29` the `double`
product is below 29 and `nbytes` is 28, not `floor (100 * 29 / 100) = 29`; at
`fsize = 2^26 + 3`, `percent = 100` the conversion to `float` loses 3. -/
theorem C7_counterexample :
    nbytes_of 100 29 = 28 ∧ nbytes_of 100 29 ≠ (100 * 29) / 100 ∧
    nbytes_of 67108867 100 = 67108864 := by
  refine ⟨by decide, by decide, by decide⟩

/-- C7 (amended): for a file below `2^24` bytes and a percentage in
`0 .. 2^24 - 1`, `nbytes` is `floor (fsize * percent / 100)` or one less; it is
the floor whenever `fsize * percent` is not a multiple of 100; and
`fsize = 10`, `percent = 1` gives 0, `fsize = 100`, `percent = 10` gives 10. -/
theorem C7_nbytes_near_floor (fsize : Nat) (percent : Int) (hf : fsize < 2 ^ 24)
    (h0 : 0 ≤ percent) (hp : percent < 2 ^ 24) :
    nbytes_of fsize percent ≤ (fsize * percent) / 100 ∧
    (fsize * percent) / 100 ≤ nbytes_of fsize percent + 1 ∧
    ((fsize * percent) % 100 ≠ 0 → nbytes_of fsize percent = (fsize * percent) / 100) ∧
    nbytes_of 10 1 = 0 ∧ nbytes_of 100 10 = 10 := by
  obtain ⟨p, rfl⟩ := Int.eq_ofNat_of_zero_le h0
  have hp2 : p < 2 ^ 24 := by exact_mod_cast hp
  rw [nbytes_of_natCast]
  obtain ⟨h1, h2, h3⟩ := nbytesMag_bounds hf hp2
  have ediv : ((fsize : Int) * (p : Int)) / 100 = ((fsize * p / 100 : Nat) : Int) := by
    push_cast
    rfl
  have emod : ((fsize : Int) * (p : Int)) % 100 = ((fsize * p % 100 : Nat) : Int) := by
    push_cast
    rfl
  rw [ediv, emod]
  refine ⟨by exact_mod_cast h1, by exact_mod_cast h2, ?_, by decide, by decide⟩
  intro hne
  have : fsize * p % 100 ≠ 0 := by
    intro hc
    apply hne
    rw [hc]
    rfl
  exact_mod_cast h3 this

theorem C7_nbytes_near_floor_witness :
    nbytes_of 100 57 ≤ ((100 : Nat) * 57) / 100 ∧ ((100 : Nat) * 57) / 100 ≤ nbytes_of 100 57 + 1 :=
  ⟨(C7_nbytes_near_floor 100 57 (by decide) (by decide) (by decide)).1,
   (C7_nbytes_near_floor 100 57 (by decide) (by decide) (by decide)).2.1⟩

/-- C8: when the option loop runs to its end with the variables `a` (no
`-h`; `percent` is 1 when no `-p` was given), `main` invokes `modify_file` if
and only if an input file and an output directory were given and
`percent > 0`, and then with exactly these values; in every other case it
returns `EXIT_FAILURE` without invoking it. -/
theorem C8_main_validation (opts : List Opt) (a : Args)
    (h : parseArgs opts initArgs = some a) :
    ((∃ input outdir percent, main opts = MainResult.invoked input outdir percent) ↔
      (a.input_filename ≠ none ∧ a.outdir ≠ none ∧ 0 < a.percent)) ∧
    (∀ input outdir percent, main opts = MainResult.invoked input outdir percent →
      a.input_filename = some input ∧ a.outdir = some outdir ∧ a.percent = percent) ∧
    (¬ (a.input_filename ≠ none ∧ a.outdir ≠ none ∧ 0 < a.percent) →
      main opts = MainResult.returned EXIT_FAILURE) ∧
    ((∀ v, Opt.percent v ∉ opts) → a.percent = 1) := by
  have hm : main opts = validate a := by
    unfold main
    rw [h]
  rw [hm]
  refine ⟨?_, ?_, ?_, fun hno => parseArgs_percent opts initArgs a hno h⟩
  · unfold validate
    cases a.input_filename with
    | none => simp
    | some i =>
      cases a.outdir with
      | none => simp
      | some o =>
        by_cases hp : a.percent ≤ 0
        · simp [hp]
        · simp only [hp, if_false]
          have : 0 < a.percent := by omega
          simp [this]
  · intro input outdir percent
    unfold validate
    cases a.input_filename with
    | none => simp
    | some i =>
      cases a.outdir with
      | none => simp
      | some o =>
        by_cases hp : a.percent ≤ 0
        · simp [hp]
        · simp only [hp, if_false]
          intro hc
          simp only [MainResult.invoked.injEq] at hc
          simp [hc.1, hc.2.1, hc.2.2]
  · unfold validate
    cases a.input_filename with
    | none => simp
    | some i =>
      cases a.outdir with
      | none => simp
      | some o =>
        by_cases hp : a.percent ≤ 0
        · simp [hp]
        · intro hc
          exfalso
          apply hc
          simp
          omega

theorem C8_main_validation_witness :
    parseArgs [Opt.file "in.bin", Opt.outdir "out"] initArgs
      = some ⟨some "in.bin", some "out", 1⟩ ∧
    ∃ input outdir percent,
      main [Opt.file "in.bin", Opt.outdir "out"] = MainResult.invoked input outdir percent :=
  ⟨by decide,
   (C8_main_validation [Opt.file "in.bin", Opt.outdir "out"] ⟨some "in.bin", some "out", 1⟩
      (by decide)).1.2 (by decide)⟩

/-- C9: after a completed run of the mutation loop every selected position
holds a value in 0..254; hence a position holding 255 in the output was not
selected and holds 255 in the input. -/
theorem C9_never_writes_255 (input : List Nat) (nbytes : Nat) (rs rs1 : List Nat) (st : MState)
    (h : mutationLoop input.length nbytes (initState input) rs = Run.done (st, rs1))
    (p : Nat) :
    (st.mappos[p]? = some 0xFF → ∃ v, st.fcontents[p]? = some v ∧ v ≤ 254) ∧
    (st.fcontents[p]? = some 255 → st.mappos[p]? = some 0x00 ∧ input[p]? = some 255) ∧
    (∀ e ∈ st.log, e.2 ≤ 254) := by
  have hI := Inv_loop _ (Inv_init input) h
  refine ⟨?_, ?_, ?_⟩
  · intro hm
    obtain ⟨_, v, hv, hlt⟩ := hI.marked p hm
    exact ⟨v, hv, by omega⟩
  · intro hfc
    have hlt : p < input.length := by
      rw [← hI.len_fc]
      exact (List.getElem?_eq_some.1 hfc).1
    have hnm : st.mappos[p]? ≠ some 0xFF := by
      intro hm
      obtain ⟨_, v, hv, hlt2⟩ := hI.marked p hm
      rw [hfc] at hv
      have := Option.some.inj hv
      omega
    obtain ⟨h0, heq⟩ := hI.unmarked p hlt hnm
    exact ⟨h0, by rw [← heq]; exact hfc⟩
  · intro e he
    have hm : st.mappos[e.1]? = some 0xFF :=
      (hI.log_mem e.1).1 (List.mem_map_of_mem _ he)
    obtain ⟨_, v, hv, hlt⟩ := hI.marked e.1 hm
    rw [hI.log_val e he] at hv
    have := Option.some.inj hv
    omega

theorem C9_never_writes_255_witness :
    mutationLoop 4 2 (initState [255, 2, 3, 255]) [3, 254, 5, 8]
      = Run.done (⟨[255, 8, 3, 254], [0, 255, 0, 255], [(3, 254), (1, 8)]⟩, []) ∧
    (∃ v, [255, 8, 3, 254][3]? = some v ∧ v ≤ 254) ∧
    ([0, 255, 0, 255][0]? = some 0x00 ∧ [255, 2, 3, 255][0]? = some 255) :=
  ⟨by decide,
   (C9_never_writes_255 [255, 2, 3, 255] 2 [3, 254, 5, 8] []
      ⟨[255, 8, 3, 254], [0, 255, 0, 255], [(3, 254), (1, 8)]⟩ (by decide) 3).1 (by decide),
   (C9_never_writes_255 [255, 2, 3, 255] 2 [3, 254, 5, 8] []
      ⟨[255, 8, 3, 254], [0, 255, 0, 255], [(3, 254), (1, 8)]⟩ (by decide) 0).2.1 (by decide)⟩

end Randbin
